import Mathlib

/-
Verification of the `ReplayBuffer` class from `labs/04/wrappers.py`:
a bounded (or unbounded) append-only sequence with circular overwrite,
Python-style signed positional indexing, and uniform random sampling.

The Python class is embedded shallowly:
* `_data` (a Python list) becomes a `List α`;
* `_offset` and `_max_length` become `Nat` / `Option Nat`;
* operations that can raise (`IndexError` from list assignment,
  `AssertionError` from the bounds assert, `ValueError` from numpy)
  return `Option`, with `none` marking the raise;
* Python `%` on ints with a positive modulus agrees with `Int.emod`
  (both land in `[0, modulus)`), so `%` on `Int` models it directly.
-/

namespace NPFL139

/-- State of `ReplayBuffer`: `max_length` is `self._max_length`
(`none` = unbounded), `data` is `self._data`, `offset` is `self._offset`. -/
structure ReplayBuffer (α : Type) where
  max_length : Option Nat
  data : List α
  offset : Nat
  deriving Repr, DecidableEq

namespace ReplayBuffer

/-- `__init__(self, max_length=None)`: empty storage, offset 0. -/
def init (max_length : Option Nat) : ReplayBuffer α :=
  { max_length := max_length, data := [], offset := 0 }

/-- `__len__`: `len(self._data)`. -/
def length (b : ReplayBuffer α) : Nat :=
  b.data.length

/-- `append(self, item)`. When bounded and `len(self._data) >= self._max_length`,
Python executes `self._data[self._offset] = item`, which raises `IndexError`
unless `self._offset < len(self._data)` (modelled by the inner guard), then
advances `self._offset = (self._offset + 1) % self._max_length`.
Otherwise it executes `self._data.append(item)`. -/
def append (b : ReplayBuffer α) (item : α) : Option (ReplayBuffer α) :=
  match b.max_length with
  | some m =>
      if m ≤ b.data.length then
        if b.offset < b.data.length then
          some { b with data := b.data.set b.offset item, offset := (b.offset + 1) % m }
        else none
      else some { b with data := b.data ++ [item] }
  | none => some { b with data := b.data ++ [item] }

/-- Body of the `for item in items` loop inside `extend` when
`self._max_length` is `m`; it is textually the bounded branch of `append`. -/
def extendStep (m : Nat) (b : ReplayBuffer α) (item : α) : Option (ReplayBuffer α) :=
  if m ≤ b.data.length then
    if b.offset < b.data.length then
      some { b with data := b.data.set b.offset item, offset := (b.offset + 1) % m }
    else none
  else some { b with data := b.data ++ [item] }

/-- `extend(self, items)`: unbounded branch calls `self._data.extend(items)`;
bounded branch loops the overwrite-or-append body over `items` in order. -/
def extend (b : ReplayBuffer α) (items : List α) : Option (ReplayBuffer α) :=
  match b.max_length with
  | none => some { b with data := b.data ++ items }
  | some m => items.foldlM (extendStep m) b

/-- `__getitem__(self, index)`: asserts `-len(self._data) <= index < len(self._data)`
(`none` models the `AssertionError`), then returns
`self._data[(self._offset + index) % len(self._data)]`. -/
def getitem (b : ReplayBuffer α) (index : Int) : Option α :=
  if -(b.data.length : Int) ≤ index ∧ index < (b.data.length : Int) then
    b.data.get? (((b.offset : Int) + index) % (b.data.length : Int)).toNat
  else none

/-- Repeated `append`, used to describe states reachable by a sequence of
single-item `append` calls. -/
def appendAll (b : ReplayBuffer α) (items : List α) : Option (ReplayBuffer α) :=
  items.foldlM append b

/-- The logical contents, oldest first: item at logical index `i` is
`data[(offset + i) % len(data)]`, i.e. `data` rotated left by `offset`. -/
def contents (b : ReplayBuffer α) : List α :=
  b.data.rotate b.offset

/-- Modelled from the spec: the injectable random source (numpy's generator,
an external collaborator not part of this repository). `randint n size`
models `generator.randint(n, size=size)` (with-replacement draws from
`[0, n)`); `choice n size` models `generator.choice(n, size=size,
replace=False)` (distinct draws from `[0, n)`). `none` models `ValueError`. -/
structure Generator where
  randint : Nat → Nat → Option (List Nat)
  choice : Nat → Nat → Option (List Nat)

/-- Modelled from the spec: the documented numpy contract. `randint` fails
exactly on an empty range and otherwise returns `size` indices below `n`;
`choice` without replacement fails exactly when more than `n` distinct
indices are requested and otherwise returns `size` distinct indices below
`n`. -/
def Generator.WF (g : Generator) : Prop :=
  (∀ size, g.randint 0 size = none) ∧
  (∀ n size, 0 < n → ∃ l, g.randint n size = some l ∧ l.length = size ∧ ∀ i ∈ l, i < n) ∧
  (∀ n size, size ≤ n → ∃ l, g.choice n size = some l ∧ l.length = size ∧
    l.Nodup ∧ ∀ i ∈ l, i < n) ∧
  (∀ n size, n < size → g.choice n size = none)

/-- `sample(self, size, generator, replace)`: draws `size` indices into
`self._data` from the generator and reads them back;
`self._data[index]` with an in-range index is `List.get?`. -/
def sample (b : ReplayBuffer α) (size : Nat) (g : Generator) (replace : Bool) :
    Option (List α) :=
  if replace then
    (g.randint b.data.length size).bind fun idxs => idxs.mapM fun i => b.data.get? i
  else
    (g.choice b.data.length size).bind fun idxs => idxs.mapM fun i => b.data.get? i

/-- The state invariant maintained by every operation: storage never exceeds
a set capacity, the offset is 0 until the buffer is full, and the offset
stays below the capacity (or at 0 when the capacity is 0). -/
def WF (b : ReplayBuffer α) : Prop :=
  (b.max_length = none → b.offset = 0) ∧
  ∀ m : Nat, b.max_length = some m →
    b.data.length ≤ m ∧ (b.data.length < m → b.offset = 0) ∧
      (b.offset < m ∨ b.offset = 0)

/-- A concrete well-formed generator, used to evaluate sampling at
specific inputs: with replacement it always draws index 0, without
replacement it draws `0, 1, ..., size-1`. -/
def detGen : Generator where
  randint := fun n size => if n = 0 then none else some (List.replicate size 0)
  choice := fun n size => if size ≤ n then some (List.range size) else none

theorem detGen_wf : detGen.WF := by
  refine ⟨fun size => rfl, fun n size hn => ?_, fun n size hsz => ?_, fun n size hlt => ?_⟩
  · refine ⟨List.replicate size 0, ?_, by simp, ?_⟩
    · simp [detGen, Nat.pos_iff_ne_zero.mp hn]
    · intro i hi
      rcases List.eq_of_mem_replicate hi with rfl
      exact hn
  · exact ⟨List.range size, by simp [detGen, hsz], by simp, List.nodup_range size,
      fun i hi => lt_of_lt_of_le (List.mem_range.mp hi) hsz⟩
  · simp [detGen, Nat.not_le.mpr hlt]

/-! ### Helper lemmas -/

/-- Spec-side list operation: push `x` at the logical end, evicting the
oldest element when the capacity `C` is already reached. The claims compare
the buffer's behaviour against folds of this operation. -/
def fifoPush (C : Nat) (l : List α) (x : α) : List α :=
  if l.length < C then l ++ [x] else l.drop 1 ++ [x]

theorem contents_length (b : ReplayBuffer α) : b.contents.length = b.data.length :=
  List.length_rotate b.data b.offset

theorem init_wf (o : Option Nat) : (init o : ReplayBuffer α).WF := by
  refine ⟨fun _ => rfl, fun m _ => ⟨Nat.zero_le m, fun _ => rfl, Or.inr rfl⟩⟩

theorem get?_isSome_iff {l : List α} {n : Nat} : (l.get? n).isSome ↔ n < l.length := by
  constructor
  · intro h
    rcases Option.isSome_iff_exists.mp h with ⟨a, ha⟩
    rcases List.get?_eq_some.mp ha with ⟨h', _⟩
    exact h'
  · intro h
    exact Option.isSome_iff_exists.mpr ⟨_, List.get?_eq_get h⟩

/-- Overwriting the slot at the rotation point and rotating one step further
is the same as dropping the oldest logical element and appending the new one. -/
theorem rotate_set_succ (d : List α) (o : Nat) (x : α) (ho : o < d.length) :
    (d.set o x).rotate (o + 1) = (d.rotate o).drop 1 ++ [x] := by
  have hset : d.set o x = (d.take o ++ [x]) ++ d.drop (o + 1) := by
    rw [List.set_eq_take_cons_drop x ho]; simp
  have hlen : (d.take o ++ [x]).length = o + 1 := by
    simp [List.length_take, Nat.min_eq_left (le_of_lt ho)]
  have hle : o + 1 ≤ (d.set o x).length := by
    rw [List.length_set]; exact ho
  rw [List.rotate_eq_drop_append_take hle, hset, List.drop_left' hlen, List.take_left' hlen,
    List.rotate_eq_drop_append_take (le_of_lt ho), List.drop_eq_getElem_cons ho,
    List.cons_append, List.drop_succ_cons, List.drop_zero, List.append_assoc]

/-- One `append` step from a well-formed bounded buffer: it succeeds,
preserves the invariant and the capacity, and refines `fifoPush` on the
logical contents. -/
theorem append_wf_step {C : Nat} (hC : 1 ≤ C) {b : ReplayBuffer α} (hwf : b.WF)
    (hm : b.max_length = some C) (x : α) :
    ∃ b' : ReplayBuffer α, b.append x = some b' ∧ b'.WF ∧ b'.max_length = some C ∧
      b'.contents = fifoPush C b.contents x := by
  obtain ⟨hlen, hnotfull, hoff⟩ := hwf.2 C hm
  by_cases hfull : C ≤ b.data.length
  · have hlenC : b.data.length = C := le_antisymm hlen hfull
    have hoC : b.offset < C := by
      rcases hoff with h | h
      · exact h
      · omega
    have hod : b.offset < b.data.length := by omega
    refine ⟨{ b with data := b.data.set b.offset x, offset := (b.offset + 1) % C },
      ?_, ?_, hm, ?_⟩
    · simp [append, hm, hfull, hod]
    · refine ⟨fun hn => absurd (hm.symm.trans hn) (by simp), fun m h2 => ?_⟩
      have hmC : m = C := (Option.some.inj (hm.symm.trans h2)).symm
      subst hmC
      refine ⟨by simpa [List.length_set] using hlen, ?_, Or.inl (Nat.mod_lt _ (by omega))⟩
      intro hlt
      simp only [List.length_set] at hlt
      omega
    · show (b.data.set b.offset x).rotate ((b.offset + 1) % C) = fifoPush C b.contents x
      have hClen : C = (b.data.set b.offset x).length := by
        rw [List.length_set, hlenC]
      rw [hClen, List.rotate_mod, ← hClen, rotate_set_succ b.data b.offset x hod]
      show _ = fifoPush C (b.data.rotate b.offset) x
      simp only [fifoPush, List.length_rotate]
      rw [if_neg (by omega)]
  · push_neg at hfull
    have ho0 : b.offset = 0 := hnotfull hfull
    refine ⟨{ b with data := b.data ++ [x] }, ?_, ?_, hm, ?_⟩
    · simp [append, hm, Nat.not_le.mpr hfull]
    · refine ⟨fun hn => absurd (hm.symm.trans hn) (by simp), fun m h2 => ?_⟩
      have hmC : m = C := (Option.some.inj (hm.symm.trans h2)).symm
      subst hmC
      refine ⟨by simp; omega, fun _ => ho0, Or.inr ho0⟩
    · have hc : b.contents = b.data := by
        simp [contents, ho0]
      show (b.data ++ [x]).rotate b.offset = fifoPush C b.contents x
      rw [ho0, List.rotate_zero, hc]
      simp [fifoPush, hfull]

/-- Folding `append` over a list of items from a well-formed bounded buffer:
always succeeds and refines the fold of `fifoPush` on the logical contents. -/
theorem appendAll_wf {C : Nat} (hC : 1 ≤ C) :
    ∀ (xs : List α) {b : ReplayBuffer α}, b.WF → b.max_length = some C →
      ∃ b' : ReplayBuffer α, b.appendAll xs = some b' ∧ b'.WF ∧ b'.max_length = some C ∧
        b'.contents = xs.foldl (fifoPush C) b.contents := by
  intro xs
  induction xs with
  | nil => exact fun hwf hm => ⟨_, rfl, hwf, hm, rfl⟩
  | cons x xs ih =>
      intro b hwf hm
      obtain ⟨b1, h1, hwf1, hm1, hc1⟩ := append_wf_step hC hwf hm x
      obtain ⟨b2, h2, hwf2, hm2, hc2⟩ := ih hwf1 hm1
      refine ⟨b2, ?_, hwf2, hm2, ?_⟩
      · show (x :: xs).foldlM append b = some b2
        rw [List.foldlM_cons]
        show (b.append x).bind (fun b' => xs.foldlM append b') = some b2
        rw [h1]
        exact h2
      · rw [hc2, hc1]
        rfl

/-- Folding `append` over a list of items on an unbounded buffer appends
them all to the storage. -/
theorem appendAll_unbounded :
    ∀ (xs : List α) (b : ReplayBuffer α), b.max_length = none →
      b.appendAll xs = some { b with data := b.data ++ xs } := by
  intro xs
  induction xs with
  | nil => intro b _; simp [appendAll]
  | cons x xs ih =>
      intro b hm
      show (x :: xs).foldlM append b = _
      rw [List.foldlM_cons]
      show (b.append x).bind (fun b' => xs.foldlM append b') = _
      rw [show b.append x = some { b with data := b.data ++ [x] } by simp [append, hm]]
      show ({ b with data := b.data ++ [x] } : ReplayBuffer α).appendAll xs = _
      rw [ih _ (by simpa using hm)]
      simp

/-- Length of a `fifoPush` fold: grows by one per item until the capacity
is reached, then stays at the capacity. -/
theorem foldl_fifoPush_length {C : Nat} (hC : 1 ≤ C) :
    ∀ (xs l : List α), l.length ≤ C →
      (xs.foldl (fifoPush C) l).length = min (l.length + xs.length) C := by
  intro xs
  induction xs with
  | nil => intro l hl; simp [Nat.min_eq_left hl]
  | cons x xs ih =>
      intro l hl
      by_cases hlt : l.length < C
      · have hp : (fifoPush C l x).length = l.length + 1 := by simp [fifoPush, hlt]
        rw [List.foldl_cons, ih (fifoPush C l x) (by omega), hp]
        simp only [List.length_cons]
        omega
      · have hlC : l.length = C := by omega
        have hp : (fifoPush C l x).length = C := by
          simp [fifoPush, hlt]
          omega
        rw [List.foldl_cons, ih (fifoPush C l x) (by omega), hp]
        simp only [List.length_cons]
        omega

/-- A `fifoPush` fold keeps exactly the last `C` elements of the
concatenation of the start state and the pushed items. -/
theorem foldl_fifoPush_drop {C : Nat} (hC : 1 ≤ C) :
    ∀ (xs l : List α), l.length ≤ C →
      xs.foldl (fifoPush C) l = (l ++ xs).drop (l.length + xs.length - C) := by
  intro xs
  induction xs with
  | nil =>
      intro l hl
      simp [Nat.sub_eq_zero_of_le hl]
  | cons x xs ih =>
      intro l hl
      rw [List.foldl_cons]
      by_cases hlt : l.length < C
      · have hpush : fifoPush C l x = l ++ [x] := by simp [fifoPush, hlt]
        rw [hpush, ih (l ++ [x]) (by simp; omega)]
        have h1 : (l ++ [x]).length + xs.length - C = l.length + (x :: xs).length - C := by
          simp
          omega
        rw [h1, List.append_assoc, List.singleton_append]
      · have hlC : l.length = C := by omega
        have hpush : fifoPush C l x = l.drop 1 ++ [x] := by simp [fifoPush, hlt]
        have hlen1 : (l.drop 1 ++ [x]).length = C := by
          simp
          omega
        rw [hpush, ih (l.drop 1 ++ [x]) (le_of_eq hlen1), hlen1]
        have harith : C + xs.length - C = xs.length := by omega
        have harith2 : l.length + (x :: xs).length - C = xs.length + 1 := by
          simp
          omega
        rw [harith, harith2]
        have hdrop1 : (l ++ x :: xs).drop 1 = (l.drop 1 ++ [x]) ++ xs := by
          rw [List.drop_append_of_le_length (by omega), List.append_assoc,
            List.singleton_append]
        calc ((l.drop 1 ++ [x]) ++ xs).drop xs.length
            = ((l ++ x :: xs).drop 1).drop xs.length := by rw [hdrop1]
          _ = (l ++ x :: xs).drop (1 + xs.length) := List.drop_drop xs.length 1 (l ++ x :: xs)
          _ = (l ++ x :: xs).drop (xs.length + 1) := by rw [Nat.add_comm]

/-- A non-negative in-range index reads the logical contents directly. -/
theorem getitem_nonneg (b : ReplayBuffer α) (i : Nat) (hi : i < b.data.length) :
    b.getitem (i : Int) = b.contents.get? i := by
  have hcond : -(b.data.length : Int) ≤ (i : Int) ∧ (i : Int) < (b.data.length : Int) := by
    constructor <;> omega
  have hidx : (((b.offset : Int) + i) % (b.data.length : Int)).toNat
      = (i + b.offset) % b.data.length := by
    have h1 : ((b.offset : Int) + i) = ((b.offset + i : Nat) : Int) := by push_cast; ring
    rw [h1, ← Int.natCast_mod, Int.toNat_natCast, Nat.add_comm]
  simp only [getitem, contents]
  rw [if_pos hcond, hidx, List.get?_rotate hi]

/-- Negative indices resolve to the same slot as their non-negative
counterpart `length - k`. -/
theorem getitem_neg_eq (b : ReplayBuffer α) (k : Nat) (h1 : 1 ≤ k)
    (h2 : k ≤ b.data.length) :
    b.getitem (-(k : Int)) = b.getitem ((b.data.length : Int) - k) := by
  have hc1 : -(b.data.length : Int) ≤ -(k : Int) ∧ -(k : Int) < (b.data.length : Int) := by
    constructor <;> omega
  have hc2 : -(b.data.length : Int) ≤ (b.data.length : Int) - k ∧
      (b.data.length : Int) - k < (b.data.length : Int) := by
    constructor <;> omega
  simp only [getitem]
  rw [if_pos hc1, if_pos hc2]
  congr 2
  have h3 : (b.offset : Int) + ((b.data.length : Int) - k)
      = ((b.offset : Int) + -(k : Int)) + (b.data.length : Int) := by ring
  rw [h3, Int.add_emod_self]

/-- Reading back a successful batch of index lookups: as many results as
indices, and every result is an element of the list. -/
theorem mapM_get?_eq_some {l : List α} :
    ∀ {idxs : List Nat} {ys : List α},
      (idxs.mapM fun i => l.get? i) = some ys →
      ys.length = idxs.length ∧ ∀ y ∈ ys, y ∈ l := by
  intro idxs
  induction idxs with
  | nil =>
      intro ys h
      have h2 : some ([] : List α) = some ys := h
      cases Option.some.inj h2
      exact ⟨rfl, by simp⟩
  | cons i idxs ih =>
      intro ys h
      rw [List.mapM_cons] at h
      rcases Option.bind_eq_some.mp h with ⟨y, hy, h2⟩
      rcases Option.bind_eq_some.mp h2 with ⟨ys1, hys1, h3⟩
      have h4 : some (y :: ys1) = some ys := h3
      cases Option.some.inj h4
      obtain ⟨hl, hmem⟩ := ih hys1
      refine ⟨by simp [hl], ?_⟩
      intro z hz
      rcases List.mem_cons.mp hz with rfl | hz2
      · exact List.get?_mem hy
      · exact hmem z hz2

/-- A batch of in-range index lookups always succeeds. -/
theorem mapM_get?_total {l : List α} :
    ∀ {idxs : List Nat}, (∀ i ∈ idxs, i < l.length) →
      ∃ ys : List α, (idxs.mapM fun i => l.get? i) = some ys := by
  intro idxs
  induction idxs with
  | nil => exact fun _ => ⟨[], rfl⟩
  | cons i idxs ih =>
      intro h
      obtain ⟨ys, hys⟩ := ih fun j hj => h j (List.mem_cons_of_mem _ hj)
      have hi : i < l.length := h i (List.mem_cons_self i idxs)
      obtain ⟨y, hy⟩ := Option.isSome_iff_exists.mp (get?_isSome_iff.mpr hi)
      refine ⟨y :: ys, ?_⟩
      rw [List.mapM_cons]
      exact Option.bind_eq_some.mpr ⟨y, hy, Option.bind_eq_some.mpr ⟨ys, hys, rfl⟩⟩

/-- A successful batch of index lookups is pointwise: each returned item
comes from its corresponding drawn index. -/
theorem mapM_get?_forall2 {l : List α} :
    ∀ {idxs : List Nat} {ys : List α},
      (idxs.mapM fun i => l.get? i) = some ys →
      List.Forall₂ (fun i y => l.get? i = some y) idxs ys := by
  intro idxs
  induction idxs with
  | nil =>
      intro ys h
      have h2 : some ([] : List α) = some ys := h
      cases Option.some.inj h2
      exact List.Forall₂.nil
  | cons i idxs ih =>
      intro ys h
      rw [List.mapM_cons] at h
      rcases Option.bind_eq_some.mp h with ⟨y, hy, h2⟩
      rcases Option.bind_eq_some.mp h2 with ⟨ys1, hys1, h3⟩
      have h4 : some (y :: ys1) = some ys := h3
      cases Option.some.inj h4
      exact List.Forall₂.cons hy (ih hys1)

/-! ### Claim theorems -/

/-- Claim C1: after any sequence of N appends into a buffer of capacity
C ≥ 1, the length is min(N, C) (so in particular at most C); without a
capacity, the length equals the number of appends. -/
theorem C1_capacity_bound (α : Type) (C : Nat) (hC : 1 ≤ C) (xs ys : List α) :
    (∃ b : ReplayBuffer α, (init (some C)).appendAll xs = some b ∧
      b.length = min xs.length C ∧ b.length ≤ C) ∧
    (∃ b : ReplayBuffer α, (init none : ReplayBuffer α).appendAll ys = some b ∧
      b.length = ys.length) := by
  constructor
  · obtain ⟨b, hb, hwf, hm, hc⟩ := appendAll_wf hC xs (init_wf (some C)) rfl
    have hmin : b.length = min xs.length C := by
      have hlen := foldl_fifoPush_length hC xs ([] : List α) (by simp)
      have hinit : (init (some C) : ReplayBuffer α).contents = ([] : List α) := rfl
      rw [hinit] at hc
      show b.data.length = min xs.length C
      rw [← contents_length, hc, hlen]
      simp
    exact ⟨b, hb, hmin, by omega⟩
  · refine ⟨_, appendAll_unbounded ys (init none) rfl, ?_⟩
    simp [length, init]

/-- Witness for C1: capacity 2 with three appends, and an unbounded buffer
with two appends. -/
theorem C1_capacity_bound_check :
    (∃ b : ReplayBuffer Nat, (init (some 2)).appendAll [1, 2, 3] = some b ∧
      b.length = min ([1, 2, 3] : List Nat).length 2 ∧ b.length ≤ 2) ∧
    (∃ b : ReplayBuffer Nat, (init none : ReplayBuffer Nat).appendAll [4, 5] = some b ∧
      b.length = ([4, 5] : List Nat).length) :=
  C1_capacity_bound Nat 2 (by omega) [1, 2, 3] [4, 5]

/-- Claim C2: appending C+1 items x0..xC to an empty buffer of capacity
C ≥ 1 leaves logical contents x1..xC oldest to newest: the length is C,
get(i) reads x(i+1) for 0 ≤ i < C, and get(length-1) is the newly
appended last item, so x0 is no longer at any logical index. -/
theorem C2_wraparound (α : Type) (C : Nat) (hC : 1 ≤ C) (xs : List α)
    (hlen : xs.length = C + 1) :
    ∃ b : ReplayBuffer α, (init (some C)).appendAll xs = some b ∧
      b.length = C ∧ b.contents = xs.drop 1 ∧
      (∀ i : Nat, i < C → b.getitem (i : Int) = xs.get? (i + 1)) ∧
      b.getitem ((b.length : Int) - 1) = xs.get? C := by
  obtain ⟨b, hb, hwf, hm, hc⟩ := appendAll_wf hC xs (init_wf (some C)) rfl
  have hcontents : b.contents = xs.drop 1 := by
    rw [hc]
    have hinit : (init (some C) : ReplayBuffer α).contents = ([] : List α) := rfl
    rw [hinit, foldl_fifoPush_drop hC xs [] (by simp)]
    simp [hlen]
  have hblen : b.data.length = C := by
    rw [← contents_length, hcontents, List.length_drop]
    omega
  refine ⟨b, hb, hblen, hcontents, ?_, ?_⟩
  · intro i hi
    rw [getitem_nonneg b i (by omega), hcontents, List.get?_drop]
    congr 1
    omega
  · have h1 : ((b.length : Int) - 1) = ((C - 1 : Nat) : Int) := by
      simp only [length, hblen]
      omega
    rw [h1, getitem_nonneg b (C - 1) (by omega), hcontents, List.get?_drop]
    congr 1
    omega

/-- Witness for C2: capacity 2 and the three items 1, 2, 3. -/
theorem C2_wraparound_check :
    ∃ b : ReplayBuffer Nat, (init (some 2)).appendAll [1, 2, 3] = some b ∧
      b.length = 2 ∧ b.contents = ([1, 2, 3] : List Nat).drop 1 ∧
      (∀ i : Nat, i < 2 → b.getitem (i : Int) = ([1, 2, 3] : List Nat).get? (i + 1)) ∧
      b.getitem ((b.length : Int) - 1) = ([1, 2, 3] : List Nat).get? 2 :=
  C2_wraparound Nat 2 (by omega) [1, 2, 3] (by decide)

/-- Claim C3: get(i) fails exactly when i is outside [-length, length);
inside that window it returns an item. Concretely, capacity 3 after
appending 1, 2, 3, 4, 5 (standing for A..E): length is 3, get(0) = 3,
get(1) = 4, get(2) = 5, get(-1) = 5, and get(3), get(-4) fail. -/
theorem C3_getitem_range :
    (∀ (α : Type) (b : ReplayBuffer α) (i : Int),
      (b.getitem i).isSome ↔ (-(b.length : Int) ≤ i ∧ i < (b.length : Int))) ∧
    (∃ b : ReplayBuffer Nat, (init (some 3)).appendAll [1, 2, 3, 4, 5] = some b ∧
      b.length = 3 ∧ b.getitem 0 = some 3 ∧ b.getitem 1 = some 4 ∧
      b.getitem 2 = some 5 ∧ b.getitem (-1) = some 5 ∧
      b.getitem 3 = none ∧ b.getitem (-4) = none) := by
  constructor
  · intro α b i
    simp only [getitem, length]
    by_cases h : -(b.data.length : Int) ≤ i ∧ i < (b.data.length : Int)
    · obtain ⟨ha, hb⟩ := h
      rw [if_pos ⟨ha, hb⟩]
      have hpos : (0 : Int) < (b.data.length : Int) := by omega
      have hnn : 0 ≤ ((b.offset : Int) + i) % (b.data.length : Int) :=
        Int.emod_nonneg _ (by omega)
      have hlt : ((b.offset : Int) + i) % (b.data.length : Int) < (b.data.length : Int) :=
        Int.emod_lt_of_pos _ hpos
      constructor
      · exact fun _ => ⟨ha, hb⟩
      · exact fun _ => get?_isSome_iff.mpr (by omega)
    · rw [if_neg h]
      simp [h]
  · exact ⟨⟨some 3, [4, 5, 3], 2⟩, rfl, rfl, rfl, rfl, rfl, rfl, rfl, rfl⟩

/-- Claim C7: negative indices count from the newest item:
get(-k) = get(length-k) for 1 ≤ k ≤ length (in particular
get(-1) = get(length-1)), and get(0) is the oldest surviving item
(the head of the logical contents). -/
theorem C7_indexing_symmetry (α : Type) (b : ReplayBuffer α) (k : Nat)
    (h1 : 1 ≤ k) (h2 : k ≤ b.length) :
    b.getitem (-(k : Int)) = b.getitem ((b.length : Int) - k) ∧
    b.getitem (-1) = b.getitem ((b.length : Int) - 1) ∧
    b.getitem 0 = b.contents.head? := by
  have h2' : k ≤ b.data.length := h2
  refine ⟨getitem_neg_eq b k h1 h2', ?_, ?_⟩
  · have h3 := getitem_neg_eq b 1 (by omega) (by omega)
    simpa using h3
  · have h0 := getitem_nonneg b 0 (by omega)
    rw [List.get?_zero] at h0
    simpa using h0

/-- Witness for C7: a full capacity-3 buffer holding 10, 20, 30 with
write cursor 2, at k = 2. -/
theorem C7_indexing_symmetry_check :
    (⟨some 3, [10, 20, 30], 2⟩ : ReplayBuffer Nat).getitem (-(2 : Int)) =
      (⟨some 3, [10, 20, 30], 2⟩ : ReplayBuffer Nat).getitem
        (((⟨some 3, [10, 20, 30], 2⟩ : ReplayBuffer Nat).length : Int) - (2 : Nat)) ∧
    (⟨some 3, [10, 20, 30], 2⟩ : ReplayBuffer Nat).getitem (-1) =
      (⟨some 3, [10, 20, 30], 2⟩ : ReplayBuffer Nat).getitem
        (((⟨some 3, [10, 20, 30], 2⟩ : ReplayBuffer Nat).length : Int) - 1) ∧
    (⟨some 3, [10, 20, 30], 2⟩ : ReplayBuffer Nat).getitem 0 =
      (⟨some 3, [10, 20, 30], 2⟩ : ReplayBuffer Nat).contents.head? :=
  C7_indexing_symmetry Nat ⟨some 3, [10, 20, 30], 2⟩ 2 (by omega) (by decide)

/-- Claim C10: constructing with capacity 0 succeeds, but the first append
fails (the overwrite branch indexes the still-empty storage), as does a
non-empty extend; a zero-capacity buffer can never hold an item. -/
theorem C10_zero_capacity (α : Type) (x : α) (xs : List α) :
    (init (some 0) : ReplayBuffer α).append x = none ∧
    (init (some 0) : ReplayBuffer α).extend (x :: xs) = none ∧
    ∀ (ys : List α) (b : ReplayBuffer α),
      (init (some 0) : ReplayBuffer α).appendAll ys = some b → b.data = [] := by
  refine ⟨rfl, rfl, ?_⟩
  intro ys b h
  cases ys with
  | nil =>
      have h2 : some (init (some 0) : ReplayBuffer α) = some b := h
      cases Option.some.inj h2
      rfl
  | cons y ys =>
      exfalso
      have h2 : (init (some 0) : ReplayBuffer α).appendAll (y :: ys) = none := by
        show (y :: ys).foldlM append (init (some 0)) = none
        rw [List.foldlM_cons]
        rfl
      rw [h2] at h
      cases h

/-- Witness for C10: capacity 0 with item 7. -/
theorem C10_zero_capacity_check :
    (init (some 0) : ReplayBuffer Nat).append 7 = none ∧
    (init (some 0) : ReplayBuffer Nat).extend [7] = none ∧
    (init (some 0) : ReplayBuffer Nat).data = [] :=
  ⟨(C10_zero_capacity Nat 7 []).1, (C10_zero_capacity Nat 7 []).2.1,
    (C10_zero_capacity Nat 7 []).2.2 [] (init (some 0)) rfl⟩

/-- The loop body of `extend` agrees with `append` whenever the buffer's
capacity field is the loop's constant. -/
theorem extendStep_eq_append {m : Nat} {b : ReplayBuffer α} (hm : b.max_length = some m)
    (x : α) : extendStep m b x = b.append x := by
  simp [extendStep, append, hm]

/-- `append` never changes the capacity field. -/
theorem append_max_length {b b' : ReplayBuffer α} {x : α} (h : b.append x = some b') :
    b'.max_length = b.max_length := by
  cases hm : b.max_length with
  | none =>
      simp only [append, hm] at h
      cases Option.some.inj h
      rfl
  | some m =>
      simp only [append, hm] at h
      by_cases h1 : m ≤ b.data.length
      · rw [if_pos h1] at h
        by_cases h2 : b.offset < b.data.length
        · rw [if_pos h2] at h
          cases Option.some.inj h
          rfl
        · rw [if_neg h2] at h
          cases h
      · rw [if_neg h1] at h
        cases Option.some.inj h
        rfl

/-- The bounded `extend` loop is the fold of `append`. -/
theorem extend_loop_eq_appendAll {m : Nat} :
    ∀ (items : List α) {b : ReplayBuffer α}, b.max_length = some m →
      items.foldlM (extendStep m) b = items.foldlM append b := by
  intro items
  induction items with
  | nil => intro b _; rfl
  | cons x items ih =>
      intro b hm
      rw [List.foldlM_cons, List.foldlM_cons, extendStep_eq_append hm]
      cases hax : b.append x with
      | none => rfl
      | some b1 =>
          have hm1 : b1.max_length = some m := by
            rw [append_max_length hax, hm]
          show items.foldlM (extendStep m) b1 = items.foldlM append b1
          exact ih hm1

/-- Claim C4: `extend` is exactly the fold of `append` over the input, an
empty input is a no-op, and an input at least as long as the capacity
leaves exactly its last `capacity` items, in order. -/
theorem C4_extend_refines_append (α : Type) (b : ReplayBuffer α) (items : List α) :
    b.extend items = b.appendAll items ∧
    b.extend [] = some b ∧
    (∀ C : Nat, b.WF → b.max_length = some C → 1 ≤ C → C ≤ items.length →
      ∃ b' : ReplayBuffer α, b.extend items = some b' ∧
        b'.contents = items.drop (items.length - C)) := by
  have hmain : b.extend items = b.appendAll items := by
    cases hm : b.max_length with
    | none =>
        have h1 : b.extend items = some { b with data := b.data ++ items } := by
          simp [extend, hm]
        rw [h1, appendAll_unbounded items b hm]
    | some m =>
        have h1 : b.extend items = items.foldlM (extendStep m) b := by
          simp [extend, hm]
        rw [h1]
        exact extend_loop_eq_appendAll items hm
  refine ⟨hmain, ?_, ?_⟩
  · cases b with
    | mk ml d o =>
        cases ml with
        | none => simp [extend]
        | some m => simp [extend]
  · intro C hwf hm hC hlen
    obtain ⟨b', hb', hwf', hm', hc'⟩ := appendAll_wf hC items hwf hm
    refine ⟨b', hmain.trans hb', ?_⟩
    have hble : b.contents.length ≤ C := by
      rw [contents_length]
      exact (hwf.2 C hm).1
    rw [hc', foldl_fifoPush_drop hC items b.contents hble]
    have harith : b.contents.length + items.length - C
        = b.contents.length + (items.length - C) := by omega
    rw [harith, ← List.drop_drop, List.drop_left]

/-- Witness for C4: capacity 2, extending the empty buffer by 1, 2, 3. -/
theorem C4_extend_refines_append_check :
    (init (some 2) : ReplayBuffer Nat).extend [1, 2, 3] =
      (init (some 2) : ReplayBuffer Nat).appendAll [1, 2, 3] ∧
    ∃ b' : ReplayBuffer Nat, (init (some 2) : ReplayBuffer Nat).extend [1, 2, 3] = some b' ∧
      b'.contents = ([1, 2, 3] : List Nat).drop (([1, 2, 3] : List Nat).length - 2) :=
  ⟨(C4_extend_refines_append Nat (init (some 2)) [1, 2, 3]).1,
    (C4_extend_refines_append Nat (init (some 2)) [1, 2, 3]).2.2 2 (init_wf (some 2)) rfl
      (by omega) (by decide)⟩

/-- Claim C5: sampling without replacement returns `k` items drawn from
pairwise-distinct positions when k ≤ length and fails when k > length;
with capacity 2 and contents X, Y, sampling 2 without replacement always
returns exactly X and Y, in some order. -/
theorem C5_sample_without_replacement (α : Type) (b : ReplayBuffer α) (k : Nat)
    (g : Generator) (hg : g.WF) :
    (k ≤ b.length →
      ∃ (idxs : List Nat) (ys : List α),
        idxs.length = k ∧ idxs.Nodup ∧ (∀ i ∈ idxs, i < b.length) ∧
        List.Forall₂ (fun i y => b.data.get? i = some y) idxs ys ∧
        b.sample k g false = some ys ∧ ys.length = k) ∧
    (b.length < k → b.sample k g false = none) ∧
    (∀ (X Y : α) (b2 : ReplayBuffer α), (init (some 2)).appendAll [X, Y] = some b2 →
      b2.sample 2 g false = some [X, Y] ∨ b2.sample 2 g false = some [Y, X]) := by
  refine ⟨?_, ?_, ?_⟩
  · intro hk
    obtain ⟨idxs, hch, hlen, hnd, hbound⟩ := hg.2.2.1 b.data.length k hk
    obtain ⟨ys, hys⟩ := mapM_get?_total hbound
    obtain ⟨hyl, _⟩ := mapM_get?_eq_some hys
    refine ⟨idxs, ys, hlen, hnd, hbound, mapM_get?_forall2 hys, ?_, by omega⟩
    show ((g.choice b.data.length k).bind fun idxs => idxs.mapM fun i => b.data.get? i)
        = some ys
    rw [hch]
    exact hys
  · intro hk
    show ((g.choice b.data.length k).bind fun idxs => idxs.mapM fun i => b.data.get? i)
        = none
    rw [hg.2.2.2 b.data.length k hk]
    rfl
  · intro X Y b2 h
    have h2 : some (⟨some 2, [X, Y], 0⟩ : ReplayBuffer α) = some b2 := h
    cases Option.some.inj h2
    obtain ⟨idxs, hch, hlen, hnd, hbound⟩ := hg.2.2.1 2 2 (le_refl 2)
    rcases idxs with _ | ⟨a, _ | ⟨c, _ | ⟨d, rest⟩⟩⟩ <;> simp at hlen
    have hac : a ≠ c := by simpa using hnd
    have ha2 : a < 2 := hbound a (by simp)
    have hc2 : c < 2 := hbound c (by simp)
    have hsample : (⟨some 2, [X, Y], 0⟩ : ReplayBuffer α).sample 2 g false
        = ((g.choice 2 2).bind fun idxs => idxs.mapM fun i => ([X, Y] : List α).get? i) :=
      rfl
    rcases (show (a = 0 ∧ c = 1) ∨ (a = 1 ∧ c = 0) from by omega) with ⟨rfl, rfl⟩ | ⟨rfl, rfl⟩
    · left
      rw [hsample, hch]
      rfl
    · right
      rw [hsample, hch]
      rfl

/-- Witness for C5: a full capacity-2 buffer holding 10, 20, sampled with
the concrete generator. -/
theorem C5_sample_without_replacement_check :
    (⟨some 2, [10, 20], 0⟩ : ReplayBuffer Nat).sample 2 detGen false = some [10, 20] ∨
    (⟨some 2, [10, 20], 0⟩ : ReplayBuffer Nat).sample 2 detGen false = some [20, 10] :=
  (C5_sample_without_replacement Nat ⟨some 2, [10, 20], 0⟩ 2 detGen detGen_wf).2.2
    10 20 ⟨some 2, [10, 20], 0⟩ rfl

/-- Claim C6: on a non-empty buffer, whatever `sample` returns (in either
replacement mode) has exactly `count` elements, and every element is one of
the currently retained items. -/
theorem C6_sample_membership (α : Type) (b : ReplayBuffer α) (count : Nat)
    (g : Generator) (hg : g.WF) (hne : 0 < b.length) :
    ∀ (replace : Bool) (l : List α), b.sample count g replace = some l →
      l.length = count ∧ ∀ x ∈ l, x ∈ b.contents := by
  intro replace l hs
  cases replace with
  | true =>
      have hs' : ((g.randint b.data.length count).bind fun idxs =>
          idxs.mapM fun i => b.data.get? i) = some l := hs
      obtain ⟨idxs, hr, hm⟩ := Option.bind_eq_some.mp hs'
      obtain ⟨idxs2, hr2, hlen2, _⟩ := hg.2.1 b.data.length count hne
      cases Option.some.inj (hr2.symm.trans hr)
      obtain ⟨hl, hmem⟩ := mapM_get?_eq_some hm
      exact ⟨by omega, fun x hx => List.mem_rotate.mpr (hmem x hx)⟩
  | false =>
      have hs' : ((g.choice b.data.length count).bind fun idxs =>
          idxs.mapM fun i => b.data.get? i) = some l := hs
      obtain ⟨idxs, hr, hm⟩ := Option.bind_eq_some.mp hs'
      by_cases hcnt : count ≤ b.data.length
      · obtain ⟨idxs2, hr2, hlen2, _, _⟩ := hg.2.2.1 b.data.length count hcnt
        cases Option.some.inj (hr2.symm.trans hr)
        obtain ⟨hl, hmem⟩ := mapM_get?_eq_some hm
        exact ⟨by omega, fun x hx => List.mem_rotate.mpr (hmem x hx)⟩
      · exfalso
        rw [hg.2.2.2 b.data.length count (by omega)] at hr
        cases hr

/-- Witness for C6: sampling 2 items with replacement from a full
capacity-2 buffer holding 7, 8 using the concrete generator yields 7, 7. -/
theorem C6_sample_membership_check :
    ([7, 7] : List Nat).length = 2 ∧ ∀ x ∈ ([7, 7] : List Nat),
      x ∈ (⟨some 2, [7, 8], 0⟩ : ReplayBuffer Nat).contents :=
  C6_sample_membership Nat ⟨some 2, [7, 8], 0⟩ 2 detGen detGen_wf (by decide) true [7, 7] rfl

/-- Claim C8: in every reachable state of a bounded buffer of capacity
C ≥ 1, the write cursor lies in [0, C); once full it marks the slot of the
oldest logical item; a full (overwriting) append advances it by one modulo
C, and a non-full append leaves it at 0. -/
theorem C8_write_cursor (α : Type) (C : Nat) (hC : 1 ≤ C) (xs : List α)
    (b : ReplayBuffer α) (hr : (init (some C)).appendAll xs = some b) :
    b.offset < C ∧
    (b.length = C → b.getitem 0 = b.data.get? b.offset) ∧
    (∀ x : α, b.length = C → ∃ b' : ReplayBuffer α, b.append x = some b' ∧
      b'.offset = (b.offset + 1) % C) ∧
    (∀ x : α, b.length < C → ∃ b' : ReplayBuffer α, b.append x = some b' ∧
      b'.offset = 0) := by
  obtain ⟨b2, hb2, hwf, hm, _⟩ := appendAll_wf hC xs (init_wf (some C)) rfl
  cases Option.some.inj (hb2.symm.trans hr)
  obtain ⟨hlen, hnotfull, hoff⟩ := hwf.2 C hm
  have hoffC : b.offset < C := by rcases hoff with h | h <;> omega
  refine ⟨hoffC, ?_, ?_, ?_⟩
  · intro hfull
    have hfull' : b.data.length = C := hfull
    have h0 : b.getitem 0 = b.contents.get? 0 := getitem_nonneg b 0 (by omega)
    rw [h0]
    show (b.data.rotate b.offset).get? 0 = b.data.get? b.offset
    rw [List.get?_rotate (by omega)]
    congr 1
    rw [Nat.zero_add, Nat.mod_eq_of_lt (by omega)]
  · intro x hfull
    have hfull' : b.data.length = C := hfull
    refine ⟨{ b with data := b.data.set b.offset x, offset := (b.offset + 1) % C },
      ?_, rfl⟩
    simp [append, hm, le_of_eq hfull'.symm, show b.offset < b.data.length from by omega]
  · intro x hnf
    have hnf' : b.data.length < C := hnf
    have ho0 : b.offset = 0 := hnotfull hnf'
    refine ⟨{ b with data := b.data ++ [x] }, ?_, ho0⟩
    simp [append, hm, Nat.not_le.mpr hnf']

/-- Witness for C8: capacity 2 after appending 1, 2, 3 (state storage
[3, 2], cursor 1), appending 9 as the overwriting step. -/
theorem C8_write_cursor_check :
    ∃ b' : ReplayBuffer Nat, (⟨some 2, [3, 2], 1⟩ : ReplayBuffer Nat).append 9 = some b' ∧
      b'.offset = ((⟨some 2, [3, 2], 1⟩ : ReplayBuffer Nat).offset + 1) % 2 :=
  (C8_write_cursor Nat 2 (by omega) [1, 2, 3] ⟨some 2, [3, 2], 1⟩ rfl).2.2.1 9 rfl

/-- Claim C9: appending to a full buffer mutates exactly the slot at the
write cursor (plus the cursor itself): the new item lands in that slot,
every other physical slot keeps its item, the storage length stays at the
capacity, and the capacity field is untouched. -/
theorem C9_append_frame (α : Type) (C : Nat) (b : ReplayBuffer α) (x : α)
    (hm : b.max_length = some C) (hfull : b.data.length = C) (ho : b.offset < C) :
    ∃ b' : ReplayBuffer α, b.append x = some b' ∧
      b'.data.length = C ∧
      b'.data.get? b.offset = some x ∧
      (∀ j : Nat, j ≠ b.offset → b'.data.get? j = b.data.get? j) ∧
      b'.max_length = some C ∧ b'.offset = (b.offset + 1) % C := by
  have hol : b.offset < b.data.length := by omega
  refine ⟨{ b with data := b.data.set b.offset x, offset := (b.offset + 1) % C },
    ?_, ?_, ?_, ?_, hm, rfl⟩
  · simp [append, hm, le_of_eq hfull.symm, hol]
  · show (b.data.set b.offset x).length = C
    simp [hfull]
  · show (b.data.set b.offset x).get? b.offset = some x
    exact List.get?_set_eq_of_lt x hol
  · intro j hj
    show (b.data.set b.offset x).get? j = b.data.get? j
    exact List.get?_set_ne x b.data (Ne.symm hj)

/-- Witness for C9: a full capacity-2 buffer holding 5, 6 with cursor 0,
appending 9. -/
theorem C9_append_frame_check :
    ∃ b' : ReplayBuffer Nat, (⟨some 2, [5, 6], 0⟩ : ReplayBuffer Nat).append 9 = some b' ∧
      b'.data.length = 2 ∧
      b'.data.get? (⟨some 2, [5, 6], 0⟩ : ReplayBuffer Nat).offset = some 9 ∧
      (∀ j : Nat, j ≠ (⟨some 2, [5, 6], 0⟩ : ReplayBuffer Nat).offset →
        b'.data.get? j = (⟨some 2, [5, 6], 0⟩ : ReplayBuffer Nat).data.get? j) ∧
      b'.max_length = some 2 ∧
      b'.offset = ((⟨some 2, [5, 6], 0⟩ : ReplayBuffer Nat).offset + 1) % 2 :=
  C9_append_frame Nat 2 ⟨some 2, [5, 6], 0⟩ 9 rfl rfl (by decide)

end ReplayBuffer

end NPFL139
